import Mathlib

/-
Verification development for the ipcaster MPEG-TS over UDP sender.

The definitions below are a shallow embedding of the C++ sources:

* `ipcaster/mpeg2-ts/MPEG2TS.hpp`       : PCR constants, `pcrSub`, `TSPacket` field accessors
* `ipcaster/source/MPEG2TSFileParser.hpp`: `sync` (sync-byte discovery), `computeBitrate`,
                                           `read` (fixed-size packet chunking)
* `ipcaster/mpeg2-ts/MPEG2TSFilters.hpp` : `PCRFilter`
* `ipcaster/smpte2022/SMPTE2022Encapsulator.hpp` : 7-packet datagram grouping with carry
* `ipcaster/net/DatagramsMuxer.hpp`     : per-stream eligibility pop, burst preparer and sender

Machine integers are modelled as `Nat`/`Int` with explicit `% 2 ^ 64` where the C++
code can wrap (size_t subtraction in the sync scanner, uint64 PCR arithmetic).
Bytes are `Nat` values (callers only ever store values < 256); a TS packet is a
`List Nat` of its bytes; where only packet identity matters (encapsulator grouping)
packets are kept abstract in a type variable.
-/

set_option maxHeartbeats 1000000
set_option maxRecDepth 100000

namespace ipcaster

/-! ## MPEG2TS.hpp : PCR constants and modular subtraction -/

/-- Source: `constexpr uint64_t PCRMAXVALUE = (((uint64_t)1 << 33) -1) * 300 + 299;`. -/
def PCRMAXVALUE : Nat := ((1 <<< 33) - 1) * 300 + 299

/-- Wrap of C++ `uint64_t` arithmetic. -/
def wrap64 (n : Nat) : Nat := n % 2 ^ 64

/-- Source: `inline uint64_t pcrSub(uint64_t pcrN, uint64_t pcrN1) { return
(pcrN1 >= pcrN) ? pcrN1-pcrN : pcrN1 + PCRMAXVALUE - pcrN +1; }`.
The else-branch arithmetic is uint64 left-to-right: `((pcrN1 + PCRMAXVALUE) - pcrN) + 1`,
every operation taken mod `2 ^ 64`; `x - y` on uint64 is `x + 2 ^ 64 - y` mod `2 ^ 64`. -/
def pcrSub (pcrN pcrN1 : Nat) : Nat :=
  if pcrN ≤ pcrN1 then wrap64 (pcrN1 - pcrN)
  else wrap64 (wrap64 (wrap64 (pcrN1 + PCRMAXVALUE) + (2 ^ 64 - pcrN)) + 1)

/-- Source: `constexpr uint8_t MPEG2TSSYNCBYTE = 0x47;`. -/
def MPEG2TSSYNCBYTE : Nat := 0x47

/-! ## MPEG2TSFileParser::sync : sync-byte discovery

The C++ scanner loop is

```
while(pos < read_size - (204*3) && packet_size_ == 0) { ... }
```

with `pos` and `read_size` of type `size_t`; the bound `read_size - 204*3` is
computed modulo `2 ^ 64`. `scanBound` is that bound. The buffer holds 9588
allocated bytes of which only `read_size` were filled by `fread`; the model reads
a default 0 for any index the C++ code would take from unspecified memory. -/

/-- Value of the size_t expression `read_size - 204*3` (wraps when `read_size < 612`). -/
def scanBound (read_size : Nat) : Nat := (read_size + (2 ^ 64 - 612)) % 2 ^ 64

/-- Inner scanner loop of `MPEG2TSFileParser::sync`: starting at `pos`, look for three
consecutive sync bytes at stride 188, else at stride 204, while `pos < scanBound read_size`.
Returns the packet size found (none if the guard stopped the loop) and the final `pos`.
The `fuel` argument only drives structural recursion; it is instantiated with
`scanBound read_size`, which bounds the number of iterations. -/
def scanPosLoop (chunk : List Nat) (read_size : Nat) : Nat → Nat → Option Nat × Nat
  | 0, pos => (none, pos)
  | fuel + 1, pos =>
    if pos < scanBound read_size then
      if chunk.getD pos 0 = MPEG2TSSYNCBYTE ∧ chunk.getD (pos + 188) 0 = MPEG2TSSYNCBYTE ∧
         chunk.getD (pos + 188 * 2) 0 = MPEG2TSSYNCBYTE then
        (some 188, pos)
      else if chunk.getD pos 0 = MPEG2TSSYNCBYTE ∧ chunk.getD (pos + 204) 0 = MPEG2TSSYNCBYTE ∧
              chunk.getD (pos + 204 * 2) 0 = MPEG2TSSYNCBYTE then
        (some 204, pos)
      else
        scanPosLoop chunk read_size fuel (pos + 1)
    else (none, pos)

/-- Scan of one freshly read buffer, from position 0. -/
def scanChunk (chunk : List Nat) (read_size : Nat) : Option Nat × Nat :=
  scanPosLoop chunk read_size (scanBound read_size) 0

/-- Outer do-while of `MPEG2TSFileParser::sync`: read 9588-byte buffers, scan each, and
when no sync was found in a full buffer rewind by `204*3` bytes and continue; the loop
exits when a sync is found or `read_size` is short of the buffer capacity (EOF).
Returns `some (packet_size, initial_sync_pos)` on success and `none` when the loop exits
with `packet_size_ == 0` — at which point the C++ code goes on to evaluate
`APROX_READ_SIZE / packet_size_`, a division by zero, instead of raising any error. -/
def syncLoopFuel : Nat → List Nat → Nat → Nat → Option (Nat × Nat)
  | 0, _, _, _ => none
  | fuel + 1, file, filePos, syncPos =>
    let chunk := (file.drop filePos).take 9588
    let read_size := chunk.length
    match scanChunk chunk read_size with
    | (some packet_size, pos) => some (packet_size, syncPos + pos)
    | (none, _) =>
      if read_size = 9588 then
        syncLoopFuel fuel file (filePos + (9588 - 612)) (syncPos + (read_size - 612))
      else none

/-- Entry point of `MPEG2TSFileParser::sync` on a whole file given as its list of bytes. -/
def sync (file : List Nat) : Option (Nat × Nat) := syncLoopFuel (file.length + 1) file 0 0

/-! ## TSPacket accessors (MPEG2TS.hpp)

The C++ class reads multi-byte fields with `bswap`-corrected loads, i.e. big-endian
byte order; `word16`/`word32` below are those loads expressed on the byte list. -/

namespace TSPacket

/-- Big-endian 16-bit load `word16`. -/
def word16 (b0 b1 : Nat) : Nat := b0 * 256 + b1

/-- Big-endian 32-bit load `word32`. -/
def word32 (b0 b1 b2 b3 : Nat) : Nat := ((b0 * 256 + b1) * 256 + b2) * 256 + b3

/-- Source: `inline uint16_t pid() const { return word16(pkt_+1) & 0x1FFF; }`. -/
def pid (pkt : List Nat) : Nat := word16 (pkt.getD 1 0) (pkt.getD 2 0) &&& 0x1FFF

/-- Source: `inline bool hasAF() const { return (pkt_[3] & 0x20) != 0; }`. -/
def hasAF (pkt : List Nat) : Bool := pkt.getD 3 0 &&& 0x20 ≠ 0

/-- Source: `inline size_t afSize() const { return hasAF() ? size_t(pkt_[4]) : 0; }`. -/
def afSize (pkt : List Nat) : Nat := if hasAF pkt then pkt.getD 4 0 else 0

/-- Source: `inline bool hasPCR() const { return afSize() > 0 && (pkt_[5] & 0x10) != 0; }`. -/
def hasPCR (pkt : List Nat) : Bool := afSize pkt > 0 && pkt.getD 5 0 &&& 0x10 ≠ 0

/-- Source: `uint64_t pcr() const` — 33-bit base from the top of the 40-bit field at
bytes 6..10, times 300, plus the 9-bit extension from bytes 10..11. -/
def pcr (pkt : List Nat) : Nat :=
  let v32 := word32 (pkt.getD 6 0) (pkt.getD 7 0) (pkt.getD 8 0) (pkt.getD 9 0)
  let v16 := word16 (pkt.getD 10 0) (pkt.getD 11 0)
  let pcr_base := v32 * 2 + v16 / 32768
  let pcr_ext := v16 &&& 0x1FF
  pcr_base * 300 + pcr_ext

end TSPacket

/-! ## PCRFilter (MPEG2TSFilters.hpp)

`std::map<uint16_t, vector<PCRPosition>>`. The model keeps an association list in
first-insertion order; `getPIDWithGreaterPCRDistance` iterates the C++ map in
ascending-PID order, but the returned maximum distance — the only output used by
`computeBitrate` — does not depend on the iteration order (only winners of ties do,
and then only in the `pid`/`bytes` outputs that `computeBitrate` uses solely when
the distance itself is positive and maximal). -/

/-- Source: `struct PCRPosition { uint64_t pcr; size_t position; };`. -/
structure PCRPosition where
  pcr : Nat
  position : Nat
deriving DecidableEq

/-- Association list standing for `std::map<uint16_t, shared_ptr<vector<PCRPosition>>>`. -/
abbrev PCRTable := List (Nat × List PCRPosition)

/-- Append one sample to the per-PID vector (creating the entry on first use),
as in the try/catch plus `push_back` of `PCRFilter::push`. -/
def tableAppend (tbl : PCRTable) (pid : Nat) (e : PCRPosition) : PCRTable :=
  match tbl with
  | [] => [(pid, [e])]
  | (p, l) :: rest =>
    if p = pid then (p, l ++ [e]) :: rest else (p, l) :: tableAppend rest pid e

/-- Per-packet body of `PCRFilter::push`: record `(pcr, packet position)` when the packet
carries a PCR. -/
def pcrFilterPushPacket (tbl : PCRTable) (pkt : List Nat) (pktPos : Nat) : PCRTable :=
  if TSPacket.hasPCR pkt then
    tableAppend tbl (TSPacket.pid pkt) ⟨TSPacket.pcr pkt, pktPos⟩
  else tbl

/-- Source: `PCRFilter::push(buffer, position)` — walk the packets of the buffer, the
packet at index `i` having stream position `i * packet_size + position`. (`computeBitrate`
passes `ftell` taken after the read as `position`; the model reproduces that.) -/
def pcrFilterPush (tbl : PCRTable) (packets : List (List Nat)) (packetSize position : Nat) :
    PCRTable :=
  (packets.foldl (fun st pkt =>
      (pcrFilterPushPacket st.1 pkt (st.2 * packetSize + position), st.2 + 1)) (tbl, 0)).1

/-- Distance output of `PCRFilter::getPIDWithGreaterPCRDistance`: over the PIDs whose
sample vector satisfies `pcrs.size() > 2`, the largest `pcrSub(pcrs[0].pcr, pcrs.back().pcr)`
(0 when no PID qualifies — `pcr_ticks_distance` is initialised to 0). -/
def getPIDWithGreaterPCRDistance (tbl : PCRTable) : Nat :=
  tbl.foldl (fun acc e =>
    if e.2.length > 2 then
      let d := pcrSub (e.2.headD ⟨0, 0⟩).pcr (e.2.getLastD ⟨0, 0⟩).pcr
      if d > acc then d else acc
    else acc) 0

/-! ## MPEG2TSFileParser::read and computeBitrate -/

/-- Chunking performed by repeated `MPEG2TSFileParser::read()` calls at packet
granularity: each call yields up to `B = APROX_READ_SIZE / packet_size` packets
(`B = 697` for 188-byte packets) and `read` returns null once no whole packet is left.
`fuel` only drives the recursion and is instantiated with the file length. -/
def readChunksFuel {α : Type} : Nat → Nat → List α → List (List α)
  | 0, _, _ => []
  | fuel + 1, B, l =>
    match l with
    | [] => []
    | _ :: _ => l.take B :: readChunksFuel fuel B (l.drop B)

/-- Sequence of buffers produced by draining `read()` on a file of packets. -/
def readChunks {α : Type} (B : Nat) (l : List α) : List (List α) :=
  readChunksFuel l.length B l

/-- Source: `BITRATE_COMPUTE_PCR_DISTANCE = (uint64_t)(PCRCLOCKFREQUENCY * 3)` = 81000000. -/
def BITRATE_COMPUTE_PCR_DISTANCE : Nat := 81000000

/-- Loop of `MPEG2TSFileParser::computeBitrate` reduced to its success/failure outcome:
push buffers through the `PCRFilter` until the reported PCR distance reaches the
threshold or EOF; afterwards `pcr_distance == 0` raises the insufficient-PCRs error.
Returns `true` exactly when the C++ code throws. `pos` is the running `ftell` value,
taken after each read. -/
def computeBitrateLoop : List (List (List Nat)) → Nat → Nat → PCRTable → Bool
  | [], _, _, tbl => getPIDWithGreaterPCRDistance tbl == 0
  | c :: rest, packetSize, pos, tbl =>
    let pos' := pos + c.length * packetSize
    let tbl' := pcrFilterPush tbl c packetSize pos'
    let dist := getPIDWithGreaterPCRDistance tbl'
    if dist < BITRATE_COMPUTE_PCR_DISTANCE then computeBitrateLoop rest packetSize pos' tbl'
    else false

/-- Outcome of `computeBitrate` on a file given as its packets (position 0 being the
first sync position): `true` iff the "Unable to compute file bitrate, not enough PCRs
found" exception is thrown. -/
def computeBitrateFails (file : List (List Nat)) (packetSize : Nat) : Bool :=
  computeBitrateLoop (readChunks (131072 / packetSize) file) packetSize 0 []

/-! ## SMPTE2022Part2Encapsulator (SMPTE2022Encapsulator.hpp)

Packets are kept abstract (`α`); the state of the encapsulator between pushes is the
packet content of `unfinished_datagram_` (the carry), empty when none is pending.
The emitted datagrams are represented by their packet lists, in push order.

The grouping loop of `push` is

```
for(; pkt_index + ts_packets_per_datagram_ < num_packets; pkt_index += ts_packets_per_datagram_)
```

note the strict `<`: a buffer that ends exactly on a 7-packet boundary leaves its
last 7 packets to `storeUnfinishedDatagram` instead of emitting them. -/

/-- Source: `ts_packets_per_datagram_ = 7;`. -/
def ts_packets_per_datagram : Nat := 7

/-- Grouping loop of `push` from `pkt_index` on: emit 7-packet groups while strictly
more than 7 packets remain, and return the final remainder (handed to
`storeUnfinishedDatagram` when nonempty). `fuel` is instantiated with the list length,
which bounds the iteration count. -/
def groupLoopFuel {α : Type} : Nat → List α → List (List α) × List α
  | 0, l => ([], l)
  | fuel + 1, l =>
    if ts_packets_per_datagram < l.length then
      let r := groupLoopFuel fuel (l.drop ts_packets_per_datagram)
      (l.take ts_packets_per_datagram :: r.1, r.2)
    else ([], l)

/-- Grouping loop of `push` on a whole remaining-packet list. -/
def groupLoop {α : Type} (l : List α) : List (List α) × List α :=
  groupLoopFuel l.length l

/-- Source: `SMPTE2022Part2Encapsulator::push` — if a carry is pending,
`handleUnfinishedDatagram` copies `min(7 - carry, n)` packets into it and emits it when
it reaches 7 packets; then the grouping loop runs on the remaining packets and a nonempty
remainder is stored as the new carry (`storeUnfinishedDatagram` copies it into a fresh
7-packet-capacity buffer). Returns (emitted datagrams, new carry). -/
def encapPush {α : Type} (carry : List α) (buf : List α) : List (List α) × List α :=
  if carry.isEmpty then groupLoop buf
  else
    let k := min (ts_packets_per_datagram - carry.length) buf.length
    let carry2 := carry ++ buf.take k
    if carry2.length = ts_packets_per_datagram then
      let r := groupLoop (buf.drop k)
      (carry2 :: r.1, r.2)
    else ([], carry2)

/-- Source: `SMPTE2022Part2Encapsulator::flush` — emit the pending carry, if any. -/
def encapFlush {α : Type} (carry : List α) : List (List α) :=
  if carry.isEmpty then [] else [carry]

/-- Datagrams emitted and final carry after a sequence of pushes starting from the
initial state (no pending datagram). -/
def encapRunAll {α : Type} (pushes : List (List α)) : List (List α) × List α :=
  pushes.foldl (fun st buf =>
    let r := encapPush st.2 buf
    (st.1 ++ r.1, r.2)) ([], [])

/-- Datagrams pushed to the consumer for a whole file of packets when the stream ends by
EOF-triggered auto-delete: the `StreamEventListener::onStreamEnd` path calls
`deleteStream(stream_id)` whose `flush` parameter defaults to `false`, so
`stop(false)` never calls `encapsulator.flush()` and the final carry is dropped.
Modelled from the spec: the `MPEG2TSFileToUDP` source driver (producer/consumer pair)
is not under src/; per spec §4.5 its consumer pushes every parsed buffer to the
encapsulator and `stop(flush)` only "optionally calls `encapsulator.flush()`". -/
def pipelineEmitted {α : Type} (B : Nat) (file : List α) : List (List α) :=
  (encapRunAll (readChunks B file)).1

/-! ## DatagramsMuxer (DatagramsMuxer.hpp)

Clock ticks are nanoseconds on the monotonic clock, modelled as `Int`. A datagram is
reduced to its send tick plus an opaque payload identifier. -/

/-- Datagram as seen by the muxer: `send_tick_` plus an opaque payload id. -/
structure Dg where
  tick : Int
  payload : Nat
deriving DecidableEq

/-- State of `DatagramsMuxer::Stream`: the FIFO of datagrams (front first), the
sync/start points with their is-set flags, `tail_send_tick_` and
`last_popped_datagram_tick_` (both initialised to the clock epoch 0). -/
structure StreamState where
  queue : List Dg
  isSyncSet : Bool
  syncPoint : Int
  isStartSet : Bool
  startPoint : Int
  tailTick : Int
  lastPopped : Int
deriving DecidableEq

/-- Fresh stream as built by the `Stream` constructor. -/
def initStream : StreamState :=
  { queue := [], isSyncSet := false, syncPoint := 0, isStartSet := false,
    startPoint := 0, tailTick := 0, lastPopped := 0 }

/-- Source: `Stream::push` — set the sync point from the first datagram's tick, enqueue,
update the tail tick. (Stamping of target ip/port is not represented; the payload id
stands for the datagram identity.) -/
def streamPush (s : StreamState) (d : Dg) : StreamState :=
  let s := if ¬ s.isSyncSet then { s with syncPoint := d.tick, isSyncSet := true } else s
  { s with queue := s.queue ++ [d], tailTick := d.tick }

/-- Source: `Stream::bufferedTime` — `duration_cast<milliseconds>(tail_send_tick_ -
front->sendTick())` when the FIFO is non-empty, else 0 ms. `duration_cast` truncates
toward zero, which on `Int` is `Int.tdiv`. -/
def bufferedTimeMs (s : StreamState) : Int :=
  match s.queue with
  | [] => 0
  | d :: _ => (s.tailTick - d.tick).tdiv 1000000

/-- Source: `Stream::popFrontDatagramElegible(now)` — empty FIFO: return null; start
point not set: return null unless `bufferedTime() >= send_buffering_preroll_` (in which
case the start point becomes `now` and the eligibility test proceeds); then pop, record
the popped datagram's original tick, and rewrite its tick to
`front.sendTick - sync_point + start_point` exactly when that value is `< now`.
`preroll` is in milliseconds as in the C++ member. -/
def popFrontDatagramElegible (s : StreamState) (now preroll : Int) :
    Option Dg × StreamState :=
  match s.queue with
  | [] => (none, s)
  | d :: rest =>
    if s.isStartSet ∨ bufferedTimeMs s ≥ preroll then
      let start := if s.isStartSet then s.startPoint else now
      let s1 := { s with isStartSet := true, startPoint := start }
      let norm := d.tick - s1.syncPoint + s1.startPoint
      if norm < now then
        (some { tick := norm, payload := d.payload },
         { s1 with queue := rest, lastPopped := d.tick })
      else (none, s1)
    else (none, s)

/-- Ticks of a datagram list. -/
def ticksOf (l : List Dg) : List Int := l.map Dg.tick

/-- One pass of the `for(auto& stream : streams_)` loop inside
`DatagramsMuxer::prepareBurst`: pop at most one eligible datagram per stream, in stream
order, appending the pops in that order. -/
def prepareRound (sts : List StreamState) (now preroll : Int) :
    List StreamState × List Dg :=
  match sts with
  | [] => ([], [])
  | st :: rest =>
    let p := popFrontDatagramElegible st now preroll
    let r := prepareRound rest now preroll
    (p.2 :: r.1, (match p.1 with | some d => [d] | none => []) ++ r.2)

/-- Total number of queued datagrams over all streams. -/
def queuesLen (sts : List StreamState) : Nat :=
  (sts.map (fun st => st.queue.length)).sum

/-- Source: the do-while of `DatagramsMuxer::prepareBurst` — repeat rounds while some
stream yielded a datagram. Each yielding round removes at least one queued datagram,
so `queuesLen sts + 1` units of fuel always suffice. The popped datagrams are appended
to `prepared_burst_` in pop order (plain `push_back`, no sorting). -/
def prepareBurstFuel : Nat → List StreamState → Int → Int → List StreamState × List Dg
  | 0, sts, _, _ => (sts, [])
  | fuel + 1, sts, now, preroll =>
    let r := prepareRound sts now preroll
    if r.2.isEmpty then (r.1, [])
    else
      let r' := prepareBurstFuel fuel r.1 now preroll
      (r'.1, r.2 ++ r'.2)

/-- Entry point of `prepareBurst` for one preparer pass at horizon `now`. -/
def prepareBurst (sts : List StreamState) (now preroll : Int) :
    List StreamState × List Dg :=
  prepareBurstFuel (queuesLen sts + 1) sts now preroll

/-- Selection loop of `DatagramsMuxer::getSendBurst`: walk `prepared_burst_` from the
front gathering datagrams with `sendTick() < now` and break at the first one that is
not; the gathered datagrams form the prefix that the subsequent `erase` removes. -/
def gatherLoop (l : List Dg) (now : Int) : List Dg :=
  match l with
  | [] => []
  | d :: rest => if d.tick < now then d :: gatherLoop rest now else []

/-- Source: `DatagramsMuxer::getSendBurst` — returns (burst sent this tick, remaining
prepared list after the prefix erase). -/
def getSendBurst (l : List Dg) (now : Int) : List Dg × List Dg :=
  let sel := gatherLoop l now
  (sel, l.drop sel.length)

/-! ## Muxer step relation

The reachable states of the preparer/sender machinery: streams are created
(`createStream`), datagrams are pushed per stream by its encapsulator, the preparer
runs `prepareBurst` at some horizon, the sender runs `getSendBurst` at some tick.
The push step carries the producer contract established by the parser: the synthetic
timestamps of spec §4.3 are non-decreasing in the packet index, so each stream's
datagram ticks arrive in non-decreasing order (`tail_send_tick_` starts at epoch 0
and every pushed tick is at least the current tail). -/

/-- Global muxer state: the stream records and `prepared_burst_`. -/
structure MuxState where
  streams : List StreamState
  prepared : List Dg
deriving DecidableEq

/-- State of a freshly constructed `DatagramsMuxer`. -/
def muxInit : MuxState := { streams := [], prepared := [] }

/-- Effect of `DatagramsMuxer::createStream`. -/
def createStepM (s : MuxState) : MuxState :=
  { s with streams := s.streams ++ [initStream] }

/-- Tail tick of stream `i` (0 when absent, matching the epoch initialisation). -/
def tailAt (s : MuxState) (i : Nat) : Int :=
  ((s.streams.get? i).map StreamState.tailTick).getD 0

/-- Replace the element at index `i` (no-op when out of range). -/
def modifyIdx {α : Type} (l : List α) (i : Nat) (f : α → α) : List α :=
  match l, i with
  | [], _ => []
  | x :: rest, 0 => f x :: rest
  | x :: rest, i + 1 => x :: modifyIdx rest i f

/-- Effect of a producer pushing datagram `d` into stream `i`. -/
def pushStepM (s : MuxState) (i : Nat) (d : Dg) : MuxState :=
  { s with streams := modifyIdx s.streams i (fun st => streamPush st d) }

/-- Effect of one preparer pass at horizon `now`. -/
def prepareStepM (s : MuxState) (now preroll : Int) : MuxState :=
  let r := prepareBurst s.streams now preroll
  { streams := r.1, prepared := s.prepared ++ r.2 }

/-- Effect of one sender tick at time `now`. -/
def sendStepM (s : MuxState) (now : Int) : MuxState :=
  { s with prepared := (getSendBurst s.prepared now).2 }

/-- Step relation of the muxer (preroll fixed, 40 ms by default in the C++). -/
inductive MuxStep (preroll : Int) : MuxState → MuxState → Prop
  | create (s : MuxState) : MuxStep preroll s (createStepM s)
  | push (s : MuxState) (i : Nat) (d : Dg) (hmono : tailAt s i ≤ d.tick) :
      MuxStep preroll s (pushStepM s i d)
  | prepare (s : MuxState) (now : Int) : MuxStep preroll s (prepareStepM s now preroll)
  | send (s : MuxState) (now : Int) : MuxStep preroll s (sendStepM s now)

/-- States reachable from a freshly constructed muxer. -/
def Reachable (preroll : Int) (s : MuxState) : Prop :=
  Relation.ReflTransGen (MuxStep preroll) muxInit s

/-! ## Concrete inputs used by the claim theorems -/

/-- File of 613 zero bytes: EOF is reached by the sync scanner on the first read
(613 < 9588) and no byte is a sync byte. -/
def file613 : List Nat := List.replicate 613 0

/-- One 188-byte TS packet with payload+adaptation-field control, AF length 183, the
PCR flag set, PCR field bytes `b6..b11`, on PID `pidv`. -/
def pcrPkt (pidv b6 b7 b8 b9 b10 b11 : Nat) : List Nat :=
  0x47 :: (pidv / 256) :: (pidv % 256) :: 0x30 :: 183 :: 0x10 ::
    b6 :: b7 :: b8 :: b9 :: b10 :: b11 :: List.replicate 176 0xFF

/-- File whose only PCRs are exactly two samples on PID 100, with values 0 and
1000 (nonzero span). -/
def fileTwoPCRs : List (List Nat) := [pcrPkt 100 0 0 0 0 0 0, pcrPkt 100 0 0 0 1 0x80 100]

/-- File of exactly seven (abstract) packets. -/
def fileSeven : List Nat := [0, 1, 2, 3, 4, 5, 6]

/-- Per-stream invariant maintained along muxer runs: the queued ticks are
non-decreasing, bounded by the tail tick, and before the first push (sync unset) the
queue is empty and the start point unset. -/
def StInv (st : StreamState) : Prop :=
  List.Pairwise (· ≤ ·) (ticksOf st.queue) ∧
  (∀ d ∈ st.queue, d.tick ≤ st.tailTick) ∧
  (st.isSyncSet = false → st.queue = [] ∧ st.isStartSet = false)

/-- Relation between one stream and the prepared list: before the stream starts nothing
is prepared, and every prepared tick is below the normalized deadline of everything
still queued and of the stream tail. -/
def LinkInv (st : StreamState) (prepared : List Dg) : Prop :=
  (st.isStartSet = false → prepared = []) ∧
  (∀ p ∈ prepared, ∀ q ∈ st.queue, p.tick ≤ q.tick - st.syncPoint + st.startPoint) ∧
  (∀ p ∈ prepared, p.tick ≤ st.tailTick - st.syncPoint + st.startPoint)

/-- Invariant of muxer states with at most one stream: the prepared list is sorted by
tick and linked to the stream. -/
def Inv1 (s : MuxState) : Prop :=
  List.Pairwise (· ≤ ·) (ticksOf s.prepared) ∧
  (s.streams = [] → s.prepared = []) ∧
  ∀ st ∈ s.streams, StInv st ∧ LinkInv st s.prepared

/-- Muxer run with two streams: both are pushed three datagrams (ticks 0, 10 ms/5 ms,
50 ms), a first preparer pass at tick 1000 banks both prerolls, and a second pass at
30 ms pops two datagrams from each stream round-robin. -/
def sC6 : MuxState :=
  prepareStepM (prepareStepM
    (pushStepM (pushStepM (pushStepM
     (pushStepM (pushStepM (pushStepM
      (createStepM (createStepM muxInit))
      0 ⟨0, 0⟩) 0 ⟨10000000, 1⟩) 0 ⟨50000000, 2⟩)
      1 ⟨0, 3⟩) 1 ⟨5000000, 4⟩) 1 ⟨50000000, 5⟩)
    1000 40) 30000000 40

/-- Muxer run identical to `sC6` but with a single stream. -/
def sW6 : MuxState :=
  prepareStepM (prepareStepM
    (pushStepM (pushStepM (pushStepM (createStepM muxInit)
      0 ⟨0, 0⟩) 0 ⟨10000000, 1⟩) 0 ⟨50000000, 2⟩)
    1000 40) 30000000 40

/-! ## C9 — PCR modular arithmetic -/

/-- C9, counterexample: the claim states `pcr_sub(p1, p2) = (p2 − p1) mod PCR_MAX` with
`PCR_MAX = ((1<<33)−1)·300 + 299`. At `p1 = 1, p2 = 0` the code returns `PCRMAXVALUE`
itself, while `(0 − 1) mod PCRMAXVALUE = PCRMAXVALUE − 1`. -/
theorem c9_counterexample :
    (pcrSub 1 0 : Int) ≠ ((0 : Int) - 1) % (PCRMAXVALUE : Int) := by decide

/-- C9, amended: for all PCR values in range, `pcrSub p1 p2` is `(p2 − p1)` modulo
`PCRMAXVALUE + 1 = 2^33 · 300` — the wrap modulus is one more than the maximum value. -/
theorem c9_amended (p1 p2 : Nat) (h1 : p1 ≤ PCRMAXVALUE) (h2 : p2 ≤ PCRMAXVALUE) :
    (pcrSub p1 p2 : Int) = ((p2 : Int) - (p1 : Int)) % ((PCRMAXVALUE : Int) + 1) := by
  have hM : PCRMAXVALUE = 2576980377599 := by decide
  simp only [pcrSub, wrap64, hM] at *
  split
  · have h3 : p2 - p1 < 2 ^ 64 := by omega
    rw [Nat.mod_eq_of_lt h3]
    omega
  · have h3 : p2 + 2576980377599 < 2 ^ 64 := by omega
    rw [Nat.mod_eq_of_lt h3]
    have h4 : p2 + 2576980377599 + (2 ^ 64 - p1) = (p2 + 2576980377599 - p1) + 2 ^ 64 := by
      omega
    rw [h4, Nat.add_mod_right,
      Nat.mod_eq_of_lt (show p2 + 2576980377599 - p1 < 2 ^ 64 by omega),
      Nat.mod_eq_of_lt (show p2 + 2576980377599 - p1 + 1 < 2 ^ 64 by omega)]
    omega

/-- C9, witness for the amended theorem at `p1 = 1, p2 = 0`. -/
theorem c9_amended_witness :
    (1 : Nat) ≤ PCRMAXVALUE ∧ (0 : Nat) ≤ PCRMAXVALUE ∧
      (pcrSub 1 0 : Int) = ((0 : Int) - 1) % ((PCRMAXVALUE : Int) + 1) :=
  ⟨by decide, by decide, c9_amended 1 0 (by decide) (by decide)⟩

/-! ## C10 — bounds of the sync scanner -/

/-- C10, counterexample: the claim states that for every read — including a final read
of fewer than 612 bytes — every compared index is within the bytes read, the guard
bound `read_size - 204*3` never wrapping. For `read_size = 10` the size_t bound wraps
to `2^64 - 602`, the guard admits `pos = 0` whose compared index `0 + 188` is beyond
the 10 bytes read, and it even admits `pos = 9600`, beyond the whole 9588-byte buffer. -/
theorem c10_counterexample :
    (10 : Nat) ≤ 9588 ∧ scanBound 10 = 2 ^ 64 - 602 ∧
      0 < scanBound 10 ∧ ¬ (0 + 188 < 10) ∧
      9600 < scanBound 10 ∧ ¬ (9600 < 9588) := by decide

/-- C10, amended: whenever a read returns at least `204·3 = 612` bytes, the guard bound
does not wrap and every index the scanner compares (`pos`, `pos+188`, `pos+204`,
`pos+188·2`, `pos+204·2` for each admitted `pos`) lies within the bytes actually read. -/
theorem c10_amended (rs : Nat) (h1 : 612 ≤ rs) (h2 : rs ≤ 9588) :
    scanBound rs = rs - 612 ∧
      ∀ pos, pos < scanBound rs →
        pos < rs ∧ pos + 188 < rs ∧ pos + 204 < rs ∧
          pos + 188 * 2 < rs ∧ pos + 204 * 2 < rs := by
  have hb : scanBound rs = rs - 612 := by
    simp only [scanBound]
    have h3 : rs + (2 ^ 64 - 612) = (rs - 612) + 2 ^ 64 := by omega
    rw [h3, Nat.add_mod_right, Nat.mod_eq_of_lt (by omega)]
  refine ⟨hb, fun pos hpos => ?_⟩
  rw [hb] at hpos
  omega

/-- C10, witness for the amended theorem at a full read (`rs = 9588`) and `pos = 0`. -/
theorem c10_amended_witness :
    scanBound 9588 = 8976 ∧ (0 : Nat) + 204 * 2 < 9588 :=
  ⟨(c10_amended 9588 (by decide) (by decide)).1,
   ((c10_amended 9588 (by decide) (by decide)).2 0 (by decide)).2.2.2.2⟩

/-! ## C4 — missing NoSync failure -/

/-- C4: on a file with no sync pattern the scanner loop exits with `packet_size_ == 0`
(model: `sync` returns `none`); the C++ `sync()` then evaluates
`APROX_READ_SIZE / packet_size_` — a division by zero — and never throws a NoSync
error. The conjuncts certify that the input reaches EOF on its first read, contains
no sync byte at all, and drives the loop to the `packet_size_ == 0` exit. -/
theorem c4_sync_eof_no_exception :
    sync file613 = none ∧ file613.length = 613 ∧
      file613.all (fun b => b ≠ MPEG2TSSYNCBYTE) = true := by decide

/-! ## C5 — two PCR samples are rejected -/

/-- C5: `getPIDWithGreaterPCRDistance` only considers PIDs with `pcrs.size() > 2`, so a
file in which a PID carries exactly two PCR samples with nonzero span leaves the
reported distance at 0 and `computeBitrate` throws InsufficientPCRs, contrary to the
claim (and to the function's own "at least two PCRs" documentation). The second
conjunct certifies that the accumulated table indeed holds a PID with exactly two
samples of nonzero `pcrSub` span. -/
theorem c5_two_pcr_samples_fail :
    computeBitrateFails fileTwoPCRs 188 = true ∧
      (pcrFilterPush [] fileTwoPCRs 188 376).any
        (fun e => e.2.length == 2 &&
          pcrSub (e.2.headD ⟨0, 0⟩).pcr (e.2.getLastD ⟨0, 0⟩).pcr ≠ 0) = true := by decide

/-! ## C1 — byte fidelity across EOF-triggered auto-delete -/

/-- C1: streaming a 7-packet file to completion through the EOF-triggered auto-delete
path emits no datagram at all — the whole file stays in the encapsulator carry
(`push` keeps even an exact final 7-packet group for the next push) and the auto-delete
path never flushes it, so the concatenated emitted payloads are not the file. -/
theorem c1_eof_autodelete_drops_tail :
    (pipelineEmitted 697 fileSeven).flatten = [] ∧
      (pipelineEmitted 697 fileSeven).flatten ++ (encapRunAll (readChunks 697 fileSeven)).2
        = fileSeven ∧
      fileSeven ≠ [] := by decide

/-! ## C2 — carry discipline of the encapsulator -/

/-- C2, counterexample: the claim states the carry is nonempty iff the cumulative number
of pushed packets is not a multiple of 7, and then holds `r < 7` packets. After a single
push of exactly 7 packets the cumulative count is a multiple of 7, yet the carry holds
all 7 packets (the grouping loop's strict `<` defers the exact final group). -/
theorem c2_counterexample :
    (encapRunAll [fileSeven]).2 ≠ [] ∧ ([fileSeven] : List (List Nat)).flatten.length % 7 = 0 ∧
      ¬ (encapRunAll [fileSeven]).2.length < 7 := by decide

/-- Grouping-loop invariant: with enough fuel, the emitted groups concatenated with the
remainder reproduce the input, every emitted group has exactly 7 packets, and the
remainder has at most 7 packets. -/
theorem groupLoopFuel_spec {α : Type} :
    ∀ (fuel : Nat) (l : List α), l.length ≤ fuel →
      (groupLoopFuel fuel l).1.flatten ++ (groupLoopFuel fuel l).2 = l ∧
        (∀ d ∈ (groupLoopFuel fuel l).1, d.length = 7) ∧
        (groupLoopFuel fuel l).2.length ≤ 7 := by
  intro fuel
  induction fuel with
  | zero =>
    intro l hl
    have : l = [] := List.length_eq_zero.mp (Nat.le_zero.mp hl)
    subst this
    simp [groupLoopFuel]
  | succ n ih =>
    intro l hl
    simp only [groupLoopFuel, ts_packets_per_datagram]
    split
    · rename_i h7
      have hd : (l.drop 7).length ≤ n := by
        rw [List.length_drop]; omega
      obtain ⟨ihj, ihall, ihlen⟩ := ih (l.drop 7) hd
      refine ⟨?_, ?_, ihlen⟩
      · simp only [List.flatten_cons, List.append_assoc, ihj]
        exact List.take_append_drop 7 l
      · intro d hdm
        rcases List.mem_cons.mp hdm with h | h
        · subst h
          simp [List.length_take]
          omega
        · exact ihall d h
    · rename_i h7
      refine ⟨by simp, by simp, ?_⟩
      simp only [List.length_nil]
      omega

/-- Grouping-loop invariant at the fuel used by `groupLoop`. -/
theorem groupLoop_spec {α : Type} (l : List α) :
    (groupLoop l).1.flatten ++ (groupLoop l).2 = l ∧
      (∀ d ∈ (groupLoop l).1, d.length = 7) ∧ (groupLoop l).2.length ≤ 7 :=
  groupLoopFuel_spec l.length l (Nat.le_refl _)

/-- Push invariant: starting from a carry of at most 7 packets, a push emits only
7-packet datagrams, the emitted datagrams followed by the new carry reproduce
carry-then-input, and the new carry again has at most 7 packets. -/
theorem encapPush_spec {α : Type} (carry buf : List α) (hc : carry.length ≤ 7) :
    (encapPush carry buf).1.flatten ++ (encapPush carry buf).2 = carry ++ buf ∧
      (∀ d ∈ (encapPush carry buf).1, d.length = 7) ∧
      (encapPush carry buf).2.length ≤ 7 := by
  simp only [encapPush, ts_packets_per_datagram]
  split
  · rename_i hce
    have : carry = [] := by simpa using hce
    subst this
    simpa using groupLoop_spec buf
  · split
    · rename_i hfull
      obtain ⟨gj, gall, glen⟩ := groupLoop_spec (buf.drop (min (7 - carry.length) buf.length))
      refine ⟨?_, ?_, glen⟩
      · simp only [List.flatten_cons, List.append_assoc, gj, List.take_append_drop]
      · intro d hdm
        rcases List.mem_cons.mp hdm with h | h
        · subst h; exact hfull
        · exact gall d h
    · rename_i hfull
      have hk : min (7 - carry.length) buf.length = buf.length := by
        simp only [List.length_append, List.length_take] at hfull
        omega
      refine ⟨?_, by simp, ?_⟩
      · simp [hk, List.take_length]
      · simp only [List.length_append, List.length_take, hk] at hfull ⊢
        omega

/-- Run invariant for a whole sequence of pushes, generalized over the accumulator of
the fold. -/
theorem encapRun_go {α : Type} :
    ∀ (pushes : List (List α)) (outs : List (List α)) (carry : List α),
      carry.length ≤ 7 → (∀ d ∈ outs, d.length = 7) →
      (∀ d ∈ (pushes.foldl (fun st buf =>
          let r := encapPush st.2 buf
          (st.1 ++ r.1, r.2)) (outs, carry)).1, d.length = 7) ∧
      (pushes.foldl (fun st buf =>
          let r := encapPush st.2 buf
          (st.1 ++ r.1, r.2)) (outs, carry)).1.flatten ++
        (pushes.foldl (fun st buf =>
          let r := encapPush st.2 buf
          (st.1 ++ r.1, r.2)) (outs, carry)).2 = outs.flatten ++ carry ++ pushes.flatten ∧
      (pushes.foldl (fun st buf =>
          let r := encapPush st.2 buf
          (st.1 ++ r.1, r.2)) (outs, carry)).2.length ≤ 7 := by
  intro pushes
  induction pushes with
  | nil =>
    intro outs carry hc hall
    refine ⟨hall, by simp, hc⟩
  | cons buf rest ih =>
    intro outs carry hc hall
    obtain ⟨pj, pall, plen⟩ := encapPush_spec carry buf hc
    simp only [List.foldl_cons]
    have hall' : ∀ d ∈ outs ++ (encapPush carry buf).1, d.length = 7 := by
      intro d hd
      rcases List.mem_append.mp hd with h | h
      · exact hall d h
      · exact pall d h
    obtain ⟨rall, rj, rlen⟩ := ih (outs ++ (encapPush carry buf).1) (encapPush carry buf).2
      plen hall'
    refine ⟨rall, ?_, rlen⟩
    rw [rj]
    simp only [List.flatten_append, List.flatten_cons, List.append_assoc, pj]

/-- Flattening a list of 7-element lists gives a multiple of 7. -/
theorem flatten_length_of_all_seven {α : Type} :
    ∀ (outs : List (List α)), (∀ d ∈ outs, d.length = 7) →
      outs.flatten.length % 7 = 0 := by
  intro outs
  induction outs with
  | nil => intro _; simp
  | cons d rest ih =>
    intro h
    have hd : d.length = 7 := h d (List.mem_cons_self _ _)
    have hr := ih (fun x hx => h x (List.mem_cons_of_mem _ hx))
    simp only [List.flatten_cons, List.length_append, hd]
    omega

/-- C2, amended: for every sequence of pushes, the encapsulator emits only datagrams of
exactly 7 TS packets; after the pushes the carry holds the trailing packets of the
pushed stream — emitted payloads followed by the carry reproduce the input exactly —
and the carry length `c` satisfies `c ≤ 7` and `c ≡ cumulative mod 7`. (It is not true
that `c < 7`, nor that `c = 0` whenever the cumulative count is a multiple of 7: a push
ending exactly on a 7-packet boundary leaves a full 7-packet carry unless it completed
a pending partial carry exactly; the carry is emitted by the next push or by `flush`.) -/
theorem c2_amended (pushes : List (List Nat)) :
    (encapRunAll pushes).1.all (fun d => d.length == 7) = true ∧
      (encapRunAll pushes).1.flatten ++ (encapRunAll pushes).2 = pushes.flatten ∧
      (encapRunAll pushes).2.length ≤ 7 ∧
      (encapRunAll pushes).2.length % 7 = pushes.flatten.length % 7 := by
  obtain ⟨hall, hj, hlen⟩ := encapRun_go pushes [] [] (by simp) (by simp)
  have hall2 : ∀ d ∈ (encapRunAll pushes).1, d.length = 7 := by
    simpa [encapRunAll] using hall
  have hj2 : (encapRunAll pushes).1.flatten ++ (encapRunAll pushes).2 = pushes.flatten := by
    simpa [encapRunAll] using hj
  have hlen2 : (encapRunAll pushes).2.length ≤ 7 := by
    simpa [encapRunAll] using hlen
  refine ⟨?_, hj2, hlen2, ?_⟩
  · rw [List.all_eq_true]
    intro d hd
    simpa using hall2 d hd
  · have hmod := flatten_length_of_all_seven _ hall2
    have hsum : (encapRunAll pushes).1.flatten.length + (encapRunAll pushes).2.length =
        pushes.flatten.length := by
      have := congrArg List.length hj2
      simpa using this
    omega

/-! ## C7 — sender split of the prepared burst -/

/-- C7, counterexample: with `prepared_burst = [tick 10, tick 1]` and `now = 5`, the
sender's split removes nothing — the loop breaks at the first element with
`sendTick ≥ now` — although the datagram with tick 1 has deadline `< now`; the claimed
set `{d | d.deadline < now}` is not what is removed. -/
theorem c7_counterexample :
    (getSendBurst [⟨10, 0⟩, ⟨1, 1⟩] 5).1 = [] ∧
      (getSendBurst [⟨10, 0⟩, ⟨1, 1⟩] 5).2 = [⟨10, 0⟩, ⟨1, 1⟩] ∧
      (⟨1, 1⟩ : Dg) ∈ ([⟨10, 0⟩, ⟨1, 1⟩] : List Dg) ∧ (1 : Int) < 5 ∧
      ([⟨10, 0⟩, ⟨1, 1⟩] : List Dg).filter (fun d => decide (d.tick < 5)) = [⟨1, 1⟩] := by
  decide

/-- Selection loop is the maximal `tick < now` prefix. -/
theorem gatherLoop_eq_takeWhile (l : List Dg) (now : Int) :
    gatherLoop l now = l.takeWhile (fun d => decide (d.tick < now)) := by
  induction l with
  | nil => rfl
  | cons d rest ih =>
    simp only [gatherLoop, List.takeWhile_cons]
    by_cases h : d.tick < now
    · simp [h, ih]
    · simp [h]

/-- Dropping the length of the `takeWhile` prefix yields `dropWhile`. -/
theorem drop_length_takeWhile {α : Type} (p : α → Bool) (l : List α) :
    l.drop (l.takeWhile p).length = l.dropWhile p := by
  induction l with
  | nil => rfl
  | cons x rest ih =>
    simp only [List.takeWhile_cons, List.dropWhile_cons]
    by_cases h : p x
    · simp [h, ih]
    · simp [h]

/-- In a list sorted by tick, the maximal `tick < now` prefix is the whole set of
elements with `tick < now`. -/
theorem takeWhile_eq_filter_of_sorted (now : Int) :
    ∀ (l : List Dg), List.Pairwise (· ≤ ·) (ticksOf l) →
      l.takeWhile (fun d => decide (d.tick < now)) = l.filter (fun d => decide (d.tick < now)) ∧
      l.dropWhile (fun d => decide (d.tick < now)) = l.filter (fun d => ! decide (d.tick < now)) := by
  intro l
  induction l with
  | nil => intro _; exact ⟨rfl, rfl⟩
  | cons d rest ih =>
    intro hs
    simp only [ticksOf, List.map_cons, List.pairwise_cons] at hs
    obtain ⟨hd, hrest⟩ := hs
    by_cases h : d.tick < now
    · obtain ⟨h1, h2⟩ := ih hrest
      simp [List.takeWhile_cons, List.dropWhile_cons, List.filter_cons, h, h1, h2]
    · have hnone : ∀ x ∈ rest, ¬ x.tick < now := by
        intro x hx
        have : d.tick ≤ x.tick := hd x.tick (by simp [ticksOf]; exact ⟨x, hx, rfl⟩)
        omega
      have hde : (decide (d.tick < now)) = false := by simpa using h
      constructor
      · rw [List.takeWhile_cons, hde]
        simp only [Bool.false_eq_true, if_false]
        rw [eq_comm, List.filter_eq_nil_iff]
        intro x hx
        rcases List.mem_cons.mp hx with rfl | hx'
        · simpa using h
        · simpa using hnone x hx'
      · rw [List.dropWhile_cons, hde]
        simp only [Bool.false_eq_true, if_false]
        rw [eq_comm, List.filter_eq_self]
        intro x hx
        rcases List.mem_cons.mp hx with rfl | hx'
        · simpa using h
        · simpa using hnone x hx'

/-- C7, amended: the split removes the maximal prefix of datagrams with
`deadline < now`, preserving order, and leaves exactly the rest of the list; every
removed datagram satisfies `deadline < now`; and when the prepared list is sorted by
deadline — the situation the spec intends — the removed prefix is exactly the set
`{d | d.deadline < now}` and the remainder exactly its complement. -/
theorem c7_amended (l : List Dg) (now : Int) :
    (getSendBurst l now).1 ++ (getSendBurst l now).2 = l ∧
      (getSendBurst l now).1 = l.takeWhile (fun d => decide (d.tick < now)) ∧
      (∀ d ∈ (getSendBurst l now).1, d.tick < now) ∧
      (List.Pairwise (· ≤ ·) (ticksOf l) →
        (getSendBurst l now).1 = l.filter (fun d => decide (d.tick < now)) ∧
        (getSendBurst l now).2 = l.filter (fun d => ! decide (d.tick < now))) := by
  have h1 : (getSendBurst l now).1 = l.takeWhile (fun d => decide (d.tick < now)) := by
    simp only [getSendBurst, gatherLoop_eq_takeWhile]
  have h2 : (getSendBurst l now).2 = l.dropWhile (fun d => decide (d.tick < now)) := by
    simp only [getSendBurst, gatherLoop_eq_takeWhile, drop_length_takeWhile]
  refine ⟨?_, h1, ?_, ?_⟩
  · rw [h1, h2]
    exact List.takeWhile_append_dropWhile _ _
  · intro d hd
    rw [h1] at hd
    have := List.mem_takeWhile_imp hd
    simpa using this
  · intro hs
    obtain ⟨hf1, hf2⟩ := takeWhile_eq_filter_of_sorted now l hs
    exact ⟨h1.trans hf1, h2.trans hf2⟩

/-- C7, witness for the amended theorem on the sorted list `[tick 1, tick 10]` at
`now = 5`. -/
theorem c7_amended_witness :
    (getSendBurst [⟨1, 1⟩, ⟨10, 0⟩] 5).1 = [⟨1, 1⟩] ∧
      (getSendBurst [⟨1, 1⟩, ⟨10, 0⟩] 5).2 = [⟨10, 0⟩] :=
  ⟨((c7_amended [⟨1, 1⟩, ⟨10, 0⟩] 5).2.2.2 (by decide)).1.trans (by decide),
   ((c7_amended [⟨1, 1⟩, ⟨10, 0⟩] 5).2.2.2 (by decide)).2.trans (by decide)⟩

/-! ## C3 — pop-eligibility rule -/

/-- Truncating nanosecond-to-millisecond conversion (`duration_cast`) compared against a
positive millisecond count agrees with the exact nanosecond comparison. -/
theorem tdiv_ms_ge_iff (x p : Int) (hp : 0 < p) : p ≤ x.tdiv 1000000 ↔ p * 1000000 ≤ x := by
  rcases x with n | n
  · show p ≤ Int.ofNat (n / 1000000) ↔ p * 1000000 ≤ Int.ofNat n
    simp only [Int.ofNat_eq_natCast]
    omega
  · show p ≤ -Int.ofNat ((n + 1) / 1000000) ↔ p * 1000000 ≤ Int.negSucc n
    simp only [Int.ofNat_eq_natCast, Int.negSucc_eq]
    omega

/-- C3: the pop-eligibility rule as the claim states it. With the queue empty the pop
returns None and leaves the state unchanged; with `start_point` unset it returns None
(state unchanged) unless `tail_deadline − front.deadline ≥ preroll`, in which case
`start_point` becomes `now`; and it pops — recording `last_popped_tick` (the front's
original deadline) and rewriting the datagram's deadline to
`normalized = front.deadline − sync_point + start_point` — exactly when
`normalized < now`, returning None otherwise (the freshly banked `start_point`
persisting either way). The preroll comparison in the code truncates to whole
milliseconds; for a positive preroll this agrees with the exact comparison stated by
the claim, hence the `0 < preroll` hypothesis (default 40). -/
theorem c3_pop_eligibility (s : StreamState) (now preroll : Int) (hp : 0 < preroll) :
    (s.queue = [] → popFrontDatagramElegible s now preroll = (none, s)) ∧
    (∀ d rest, s.queue = d :: rest → s.isStartSet = false →
      s.tailTick - d.tick < preroll * 1000000 →
      popFrontDatagramElegible s now preroll = (none, s)) ∧
    (∀ d rest, s.queue = d :: rest →
      (s.isStartSet = true ∨ preroll * 1000000 ≤ s.tailTick - d.tick) →
      ((d.tick - s.syncPoint + (if s.isStartSet then s.startPoint else now) < now →
        popFrontDatagramElegible s now preroll =
          (some { tick := d.tick - s.syncPoint + (if s.isStartSet then s.startPoint else now),
                  payload := d.payload },
           { queue := rest, isSyncSet := s.isSyncSet, syncPoint := s.syncPoint,
             isStartSet := true,
             startPoint := if s.isStartSet then s.startPoint else now,
             tailTick := s.tailTick, lastPopped := d.tick })) ∧
       (¬ d.tick - s.syncPoint + (if s.isStartSet then s.startPoint else now) < now →
        popFrontDatagramElegible s now preroll =
          (none, { queue := s.queue, isSyncSet := s.isSyncSet, syncPoint := s.syncPoint,
                   isStartSet := true,
                   startPoint := if s.isStartSet then s.startPoint else now,
                   tailTick := s.tailTick, lastPopped := s.lastPopped })))) := by
  refine ⟨?_, ?_, ?_⟩
  · intro hq
    simp [popFrontDatagramElegible, hq]
  · intro d rest hq hns hlt
    have hbuf : ¬ (preroll ≤ bufferedTimeMs s) := by
      rw [bufferedTimeMs, hq, tdiv_ms_ge_iff _ _ hp]
      omega
    simp only [popFrontDatagramElegible, hq]
    rw [if_neg (by simp [hns, hbuf])]
  · intro d rest hq hcond
    have hor : (s.isStartSet = true) ∨ preroll ≤ bufferedTimeMs s := by
      rcases hcond with h | h
      · exact Or.inl h
      · right
        rw [bufferedTimeMs, hq, tdiv_ms_ge_iff _ _ hp]
        exact h
    constructor
    · intro hnorm
      simp only [popFrontDatagramElegible, hq]
      rw [if_pos (by simpa using hor)]
      rw [if_pos (by simpa using hnorm)]
    · intro hnorm
      simp only [popFrontDatagramElegible, hq]
      rw [if_pos (by simpa using hor)]
      rw [if_neg (by simpa using hnorm)]

/-- C3, witness: a started stream with one queued datagram of tick 5, sync and start
points 0, at `now = 10`: the datagram is popped with its deadline normalized to 5 and
`last_popped_tick` set to the original tick. -/
theorem c3_pop_eligibility_witness :
    popFrontDatagramElegible ⟨[⟨5, 0⟩], true, 0, true, 0, 5, 0⟩ 10 40 =
      (some ⟨5, 0⟩, ⟨[], true, 0, true, 0, 5, 5⟩) := by
  have h := ((c3_pop_eligibility ⟨[⟨5, 0⟩], true, 0, true, 0, 5, 0⟩ 10 40 (by decide)).2.2
    ⟨5, 0⟩ [] rfl (Or.inl rfl)).1 (by decide)
  exact h.trans (by decide)

/-! ## C6 — order of the prepared burst -/

/-- C6, counterexample: the state `sC6` is reachable (two streams, monotone pushes,
two preparer passes), yet its prepared list carries ticks
`[1000, 1000, 10001000, 5001000]` — the round-robin `push_back` interleaving is not
sorted by normalized deadline across streams. -/
theorem c6_counterexample :
    Reachable 40 sC6 ∧ ¬ List.Pairwise (· ≤ ·) (ticksOf sC6.prepared) := by
  constructor
  · exact Relation.ReflTransGen.head (MuxStep.create _)
      (Relation.ReflTransGen.head (MuxStep.create _)
      (Relation.ReflTransGen.head (MuxStep.push _ 0 ⟨0, 0⟩ (by decide))
      (Relation.ReflTransGen.head (MuxStep.push _ 0 ⟨10000000, 1⟩ (by decide))
      (Relation.ReflTransGen.head (MuxStep.push _ 0 ⟨50000000, 2⟩ (by decide))
      (Relation.ReflTransGen.head (MuxStep.push _ 1 ⟨0, 3⟩ (by decide))
      (Relation.ReflTransGen.head (MuxStep.push _ 1 ⟨5000000, 4⟩ (by decide))
      (Relation.ReflTransGen.head (MuxStep.push _ 1 ⟨50000000, 5⟩ (by decide))
      (Relation.ReflTransGen.head (MuxStep.prepare _ 1000)
      (Relation.ReflTransGen.head (MuxStep.prepare _ 30000000)
        Relation.ReflTransGen.refl)))))))))
  · decide

/-- Ticks of an empty list. -/
theorem ticksOf_nil : ticksOf [] = [] := rfl

/-- Ticks of a cons. -/
theorem ticksOf_cons (d : Dg) (l : List Dg) : ticksOf (d :: l) = d.tick :: ticksOf l := rfl

/-- Ticks of an append. -/
theorem ticksOf_append (l1 l2 : List Dg) : ticksOf (l1 ++ l2) = ticksOf l1 ++ ticksOf l2 := by
  simp [ticksOf]

/-- Appending one element to a sorted tick list keeps it sorted when the new tick
dominates the old ones. -/
theorem pairwise_append_one (l : List Dg) (d : Dg)
    (h : List.Pairwise (· ≤ ·) (ticksOf l)) (hall : ∀ p ∈ l, p.tick ≤ d.tick) :
    List.Pairwise (· ≤ ·) (ticksOf (l ++ [d])) := by
  rw [ticksOf_append, List.pairwise_append]
  refine ⟨h, List.pairwise_singleton _ _, ?_⟩
  intro a ha b hb
  simp only [ticksOf, List.mem_map] at ha
  obtain ⟨p, hp, rfl⟩ := ha
  simp only [ticksOf, List.map_cons, List.map_nil, List.mem_singleton] at hb
  subst hb
  exact hall p hp

/-- Preservation of the stream and link invariants by one eligibility pop: the popped
datagram (if any) extends the prepared list keeping it sorted and linked. -/
theorem pop_preserve (st : StreamState) (prepared : List Dg) (now preroll : Int)
    (hsort : List.Pairwise (· ≤ ·) (ticksOf prepared))
    (hst : StInv st) (hlink : LinkInv st prepared) :
    StInv (popFrontDatagramElegible st now preroll).2 ∧
      LinkInv (popFrontDatagramElegible st now preroll).2
        (prepared ++ (popFrontDatagramElegible st now preroll).1.toList) ∧
      List.Pairwise (· ≤ ·)
        (ticksOf (prepared ++ (popFrontDatagramElegible st now preroll).1.toList)) := by
  cases hq : st.queue with
  | nil =>
    simp only [popFrontDatagramElegible, hq, Option.toList, List.append_nil]
    exact ⟨hst, hlink, hsort⟩
  | cons d rest =>
    obtain ⟨hq_sorted, hq_tail, hsync⟩ := hst
    obtain ⟨hstart_emp, hlink_q, hlink_tail⟩ := hlink
    rw [hq, ticksOf_cons, List.pairwise_cons] at hq_sorted
    obtain ⟨hd_min, hrest_sorted⟩ := hq_sorted
    have hd_mem : d ∈ st.queue := by rw [hq]; exact List.mem_cons_self _ _
    have hsync_true : st.isSyncSet = true := by
      by_contra hfalse
      have := (hsync (by simpa using hfalse)).1
      rw [hq] at this
      exact List.noConfusion this
    simp only [popFrontDatagramElegible, hq]
    by_cases hcond : (st.isStartSet = true ∨ preroll ≤ bufferedTimeMs st)
    · rw [if_pos (by simpa using hcond)]
      by_cases hss : st.isStartSet = true
      · simp only [hss, if_true]
        by_cases hn : d.tick - st.syncPoint + st.startPoint < now
        · rw [if_pos hn]
          simp only [Option.toList]
          refine ⟨⟨?_, ?_, ?_⟩, ⟨?_, ?_, ?_⟩, ?_⟩
          · exact hrest_sorted
          · intro q hqmem
            exact hq_tail q (by rw [hq]; exact List.mem_cons_of_mem _ hqmem)
          · intro hfalse
            simp only [hsync_true] at hfalse
            exact absurd hfalse (by decide)
          · intro hfalse
            simp only at hfalse
            exact absurd hfalse (by decide)
          · intro p hp q hqmem
            rcases List.mem_append.mp hp with hpold | hpnew
            · exact hlink_q p hpold q (by rw [hq]; exact List.mem_cons_of_mem _ hqmem)
            · have hpd : p = { tick := d.tick - st.syncPoint + st.startPoint,
                               payload := d.payload } := by simpa using hpnew
              subst hpd
              have : d.tick ≤ q.tick := by
                apply hd_min
                simp only [ticksOf, List.mem_map]
                exact ⟨q, hqmem, rfl⟩
              simp only []
              omega
          · intro p hp
            rcases List.mem_append.mp hp with hpold | hpnew
            · exact hlink_tail p hpold
            · have hpd : p = { tick := d.tick - st.syncPoint + st.startPoint,
                               payload := d.payload } := by simpa using hpnew
              subst hpd
              have : d.tick ≤ st.tailTick := hq_tail d hd_mem
              simp only []
              omega
          · apply pairwise_append_one _ _ hsort
            intro p hp
            have := hlink_q p hp d hd_mem
            simpa using this
        · rw [if_neg hn]
          simp only [Option.toList, List.append_nil]
          refine ⟨⟨?_, ?_, ?_⟩, ⟨?_, ?_, ?_⟩, hsort⟩
          · show List.Pairwise (· ≤ ·) (ticksOf (d :: rest))
            rw [ticksOf_cons, List.pairwise_cons]
            exact ⟨hd_min, hrest_sorted⟩
          · intro q hq2
            exact hq_tail q (by rw [hq]; exact hq2)
          · intro hfalse
            simp only [hsync_true] at hfalse
            exact absurd hfalse (by decide)
          · intro hfalse
            simp only at hfalse
            exact absurd hfalse (by decide)
          · intro p hp q hq2
            exact hlink_q p hp q (by rw [hq]; exact hq2)
          · intro p hp
            exact hlink_tail p hp
      · have hss' : st.isStartSet = false := by simpa using hss
        have hprep : prepared = [] := hstart_emp hss'
        subst hprep
        simp only [hss', if_false, Bool.false_eq_true]
        by_cases hn : d.tick - st.syncPoint + now < now
        · rw [if_pos hn]
          simp only [Option.toList, List.nil_append]
          refine ⟨⟨?_, ?_, ?_⟩, ⟨?_, ?_, ?_⟩, ?_⟩
          · exact hrest_sorted
          · intro q hqmem
            exact hq_tail q (by rw [hq]; exact List.mem_cons_of_mem _ hqmem)
          · intro hfalse
            simp only [hsync_true] at hfalse
            exact absurd hfalse (by decide)
          · intro hfalse
            simp only at hfalse
            exact absurd hfalse (by decide)
          · intro p hp q hqmem
            have hpd : p = { tick := d.tick - st.syncPoint + now,
                             payload := d.payload } := by simpa using hp
            subst hpd
            have : d.tick ≤ q.tick := by
              apply hd_min
              simp only [ticksOf, List.mem_map]
              exact ⟨q, hqmem, rfl⟩
            simp only []
            omega
          · intro p hp
            have hpd : p = { tick := d.tick - st.syncPoint + now,
                             payload := d.payload } := by simpa using hp
            subst hpd
            have : d.tick ≤ st.tailTick := hq_tail d hd_mem
            simp only []
            omega
          · simp [ticksOf]
        · rw [if_neg hn]
          simp only [Option.toList, List.append_nil]
          refine ⟨⟨?_, ?_, ?_⟩, ⟨?_, ?_, ?_⟩, hsort⟩
          · show List.Pairwise (· ≤ ·) (ticksOf (d :: rest))
            rw [ticksOf_cons, List.pairwise_cons]
            exact ⟨hd_min, hrest_sorted⟩
          · intro q hq2
            exact hq_tail q (by rw [hq]; exact hq2)
          · intro hfalse
            simp only [hsync_true] at hfalse
            exact absurd hfalse (by decide)
          · intro hfalse
            simp only at hfalse
            exact absurd hfalse (by decide)
          · intro p hp
            exact absurd hp (List.not_mem_nil p)
          · intro p hp
            exact absurd hp (List.not_mem_nil p)
    · rw [if_neg (by simpa using hcond)]
      simp only [Option.toList, List.append_nil]
      exact ⟨⟨by rw [hq, ticksOf_cons, List.pairwise_cons]; exact ⟨hd_min, hrest_sorted⟩,
        hq_tail, hsync⟩, ⟨hstart_emp, hlink_q, hlink_tail⟩, hsort⟩

/-- One preparer round over no streams yields nothing. -/
theorem prepareRound_nil (now preroll : Int) : prepareRound [] now preroll = ([], []) := rfl

/-- One preparer round over a single stream is one eligibility pop. -/
theorem prepareRound_single (st : StreamState) (now preroll : Int) :
    prepareRound [st] now preroll =
      ([(popFrontDatagramElegible st now preroll).2],
        (popFrontDatagramElegible st now preroll).1.toList) := by
  simp only [prepareRound, prepareRound_nil]
  cases h : (popFrontDatagramElegible st now preroll).1 <;> simp [h, Option.toList]

/-- The preparer loop over no streams yields nothing. -/
theorem prepareBurstFuel_nil (fuel : Nat) (now preroll : Int) :
    prepareBurstFuel fuel [] now preroll = ([], []) := by
  cases fuel <;> simp [prepareBurstFuel, prepareRound_nil]

/-- Invariant preservation by the preparer loop over a single stream: the stream
invariants are preserved and the prepared list stays sorted and linked. -/
theorem prepareBurstFuel_single (now preroll : Int) :
    ∀ (fuel : Nat) (st : StreamState) (prepared : List Dg),
      List.Pairwise (· ≤ ·) (ticksOf prepared) → StInv st → LinkInv st prepared →
      ∃ st', (prepareBurstFuel fuel [st] now preroll).1 = [st'] ∧
        StInv st' ∧
        LinkInv st' (prepared ++ (prepareBurstFuel fuel [st] now preroll).2) ∧
        List.Pairwise (· ≤ ·)
          (ticksOf (prepared ++ (prepareBurstFuel fuel [st] now preroll).2)) := by
  intro fuel
  induction fuel with
  | zero =>
    intro st prepared hs hst hl
    refine ⟨st, rfl, hst, ?_, ?_⟩
    · simpa [prepareBurstFuel] using hl
    · simpa [prepareBurstFuel] using hs
  | succ n ih =>
    intro st prepared hs hst hl
    obtain ⟨hst1, hl1, hs1⟩ := pop_preserve st prepared now preroll hs hst hl
    cases hpop : (popFrontDatagramElegible st now preroll).1 with
    | none =>
      rw [hpop] at hl1 hs1
      simp only [Option.toList, List.append_nil] at hl1 hs1
      simp only [prepareBurstFuel, prepareRound_single, hpop, Option.toList,
        List.isEmpty_nil, if_true]
      exact ⟨(popFrontDatagramElegible st now preroll).2, rfl, hst1,
        by simpa using hl1, by simpa using hs1⟩
    | some d =>
      rw [hpop] at hl1 hs1
      simp only [Option.toList] at hl1 hs1
      obtain ⟨st', h1, h2, h3, h4⟩ :=
        ih (popFrontDatagramElegible st now preroll).2 (prepared ++ [d]) hs1 hst1 hl1
      simp only [prepareBurstFuel, prepareRound_single, hpop, Option.toList,
        List.isEmpty_cons, if_false]
      refine ⟨st', h1, h2, ?_, ?_⟩
      · simpa [List.append_assoc] using h3
      · simpa [List.append_assoc] using h4

/-- Index replacement preserves length. -/
theorem modifyIdx_length {α : Type} :
    ∀ (l : List α) (i : Nat) (f : α → α), (modifyIdx l i f).length = l.length := by
  intro l
  induction l with
  | nil => intro i f; cases i <;> rfl
  | cons x rest ih =>
    intro i f
    cases i with
    | zero => simp [modifyIdx]
    | succ j => simp [modifyIdx, ih]

/-- One preparer round preserves the number of streams. -/
theorem prepareRound_length :
    ∀ (sts : List StreamState) (now preroll : Int),
      (prepareRound sts now preroll).1.length = sts.length := by
  intro sts
  induction sts with
  | nil => intro now preroll; rfl
  | cons st rest ih =>
    intro now preroll
    simp [prepareRound, ih]

/-- The preparer loop preserves the number of streams. -/
theorem prepareBurstFuel_length :
    ∀ (fuel : Nat) (sts : List StreamState) (now preroll : Int),
      (prepareBurstFuel fuel sts now preroll).1.length = sts.length := by
  intro fuel
  induction fuel with
  | zero => intro sts now preroll; rfl
  | succ n ih =>
    intro sts now preroll
    simp only [prepareBurstFuel]
    split
    · rw [prepareRound_length]
    · rw [ih, prepareRound_length]

/-- The invariant holds initially. -/
theorem inv1_init : Inv1 muxInit := by
  refine ⟨List.Pairwise.nil, fun _ => rfl, ?_⟩
  intro st hst
  exact absurd hst (List.not_mem_nil st)

/-- Creating the first stream preserves the invariant. -/
theorem inv1_create (s : MuxState) (h0 : s.streams = []) (h : Inv1 s) :
    Inv1 (createStepM s) := by
  obtain ⟨hsort, hemp, _⟩ := h
  have hp : s.prepared = [] := hemp h0
  refine ⟨hsort, ?_, ?_⟩
  · intro hh
    simp [createStepM, h0] at hh
  · intro st hst
    simp only [createStepM, h0, List.nil_append, List.mem_singleton] at hst
    subst hst
    refine ⟨⟨?_, ?_, ?_⟩, ?_, ?_, ?_⟩
    · exact List.Pairwise.nil
    · intro q hq
      exact absurd hq (List.not_mem_nil q)
    · intro _
      exact ⟨rfl, rfl⟩
    · intro _
      exact hp
    · intro p hp2
      have hp3 : p ∈ s.prepared := by simpa [createStepM] using hp2
      rw [hp] at hp3
      exact absurd hp3 (List.not_mem_nil p)
    · intro p hp2
      have hp3 : p ∈ s.prepared := by simpa [createStepM] using hp2
      rw [hp] at hp3
      exact absurd hp3 (List.not_mem_nil p)

/-- A monotone producer push preserves the invariant (at most one stream). -/
theorem inv1_push (s : MuxState) (i : Nat) (d : Dg) (hmono : tailAt s i ≤ d.tick)
    (h : Inv1 s) (hlen : s.streams.length ≤ 1) : Inv1 (pushStepM s i d) := by
  obtain ⟨hsort, hemp, hall⟩ := h
  cases hstr : s.streams with
  | nil =>
    refine ⟨hsort, ?_, ?_⟩
    · intro _
      exact hemp hstr
    · intro st hst
      simp only [pushStepM, hstr] at hst
      cases i <;> exact absurd hst (List.not_mem_nil st)
  | cons st0 rest0 =>
    have hrest0 : rest0 = [] := by
      rw [hstr] at hlen
      simp only [List.length_cons] at hlen
      exact List.length_eq_zero.mp (by omega)
    subst hrest0
    cases i with
    | succ j =>
      have hmod : modifyIdx [st0] (j + 1) (fun st => streamPush st d) = [st0] := rfl
      refine ⟨hsort, ?_, ?_⟩
      · intro hh
        simp [pushStepM, hstr, hmod] at hh
      · intro st hst
        simp only [pushStepM, hstr, hmod, List.mem_singleton] at hst
        rw [hst]
        exact hall st0 (by rw [hstr]; exact List.mem_cons_self _ _)
    | zero =>
      obtain ⟨⟨hq_sorted, hq_tail, hsync⟩, hstart_emp, hlink_q, hlink_tail⟩ :=
        hall st0 (by rw [hstr]; exact List.mem_cons_self _ _)
      have htail : st0.tailTick ≤ d.tick := by
        simpa [tailAt, hstr] using hmono
      refine ⟨hsort, ?_, ?_⟩
      · intro hh
        simp [pushStepM, hstr, modifyIdx] at hh
      · intro st hst
        simp only [pushStepM, hstr, modifyIdx, List.mem_singleton] at hst
        subst hst
        by_cases hss : st0.isSyncSet = true
        · have hpush : streamPush st0 d =
              { queue := st0.queue ++ [d], isSyncSet := st0.isSyncSet,
                syncPoint := st0.syncPoint, isStartSet := st0.isStartSet,
                startPoint := st0.startPoint, tailTick := d.tick,
                lastPopped := st0.lastPopped } := by
            simp [streamPush, hss]
          rw [hpush]
          refine ⟨⟨?_, ?_, ?_⟩, ?_, ?_, ?_⟩
          · apply pairwise_append_one _ _ hq_sorted
            intro p hp
            exact le_trans (hq_tail p hp) htail
          · intro q hq
            rcases List.mem_append.mp hq with hq1 | hq1
            · exact le_trans (hq_tail q hq1) htail
            · rw [List.mem_singleton.mp hq1]
          · intro hfalse
            simp only [hss] at hfalse
            exact absurd hfalse (by decide)
          · intro hfalse
            exact hstart_emp hfalse
          · intro p hp q hq
            rcases List.mem_append.mp hq with hq1 | hq1
            · exact hlink_q p hp q hq1
            · rw [List.mem_singleton.mp hq1]
              show p.tick ≤ d.tick - st0.syncPoint + st0.startPoint
              have := hlink_tail p hp
              omega
          · intro p hp
            show p.tick ≤ d.tick - st0.syncPoint + st0.startPoint
            have := hlink_tail p hp
            omega
        · have hss' : st0.isSyncSet = false := by simpa using hss
          obtain ⟨hq_nil, hstart_false⟩ := hsync hss'
          have hp : s.prepared = [] := hstart_emp hstart_false
          have hpush : streamPush st0 d =
              { queue := st0.queue ++ [d], isSyncSet := true,
                syncPoint := d.tick, isStartSet := st0.isStartSet,
                startPoint := st0.startPoint, tailTick := d.tick,
                lastPopped := st0.lastPopped } := by
            simp [streamPush, hss']
          rw [hpush, hq_nil]
          refine ⟨⟨?_, ?_, ?_⟩, ?_, ?_, ?_⟩
          · simp [ticksOf]
          · intro q hq
            have hq2 : q = d := by simpa using hq
            subst hq2
            exact le_refl _
          · intro hfalse
            exact absurd (show (true : Bool) = false from hfalse) (by decide)
          · intro _
            exact hp
          · intro p hp2
            have hp3 : p ∈ s.prepared := by simpa [pushStepM] using hp2
            rw [hp] at hp3
            exact absurd hp3 (List.not_mem_nil p)
          · intro p hp2
            have hp3 : p ∈ s.prepared := by simpa [pushStepM] using hp2
            rw [hp] at hp3
            exact absurd hp3 (List.not_mem_nil p)

/-- A preparer pass preserves the invariant (at most one stream). -/
theorem inv1_prepare (s : MuxState) (now preroll : Int) (h : Inv1 s)
    (hlen : s.streams.length ≤ 1) : Inv1 (prepareStepM s now preroll) := by
  obtain ⟨hsort, hemp, hall⟩ := h
  cases hstr : s.streams with
  | nil =>
    have hp : s.prepared = [] := hemp hstr
    refine ⟨?_, ?_, ?_⟩
    · simp only [prepareStepM, hstr, prepareBurst, prepareBurstFuel_nil, List.append_nil]
      exact hsort
    · intro _
      simp only [prepareStepM, hstr, prepareBurst, prepareBurstFuel_nil, List.append_nil]
      exact hp
    · intro st hst
      simp only [prepareStepM, hstr, prepareBurst, prepareBurstFuel_nil] at hst
      exact absurd hst (List.not_mem_nil st)
  | cons st0 rest0 =>
    have hrest0 : rest0 = [] := by
      rw [hstr] at hlen
      simp only [List.length_cons] at hlen
      exact List.length_eq_zero.mp (by omega)
    subst hrest0
    obtain ⟨hst0, hl0⟩ := hall st0 (by rw [hstr]; exact List.mem_cons_self _ _)
    obtain ⟨st', h1, h2, h3, h4⟩ :=
      prepareBurstFuel_single now preroll (queuesLen [st0] + 1) st0 s.prepared hsort hst0 hl0
    refine ⟨?_, ?_, ?_⟩
    · simpa [prepareStepM, hstr, prepareBurst] using h4
    · intro hh
      simp only [prepareStepM, hstr, prepareBurst] at hh
      rw [h1] at hh
      exact absurd hh (by simp)
    · intro st hst
      simp only [prepareStepM, hstr, prepareBurst] at hst
      rw [h1] at hst
      rw [List.mem_singleton.mp hst]
      constructor
      · exact h2
      · simpa [prepareStepM, hstr, prepareBurst] using h3

/-- A sender tick preserves the invariant. -/
theorem inv1_send (s : MuxState) (now : Int) (h : Inv1 s) : Inv1 (sendStepM s now) := by
  obtain ⟨hsort, hemp, hall⟩ := h
  have hsub : ∀ p ∈ (sendStepM s now).prepared, p ∈ s.prepared := by
    intro p hp
    simp only [sendStepM, getSendBurst] at hp
    exact List.mem_of_mem_drop hp
  refine ⟨?_, ?_, ?_⟩
  · simp only [sendStepM, getSendBurst, ticksOf, List.map_drop]
    exact List.Pairwise.sublist (List.drop_sublist _ _) (by simpa [ticksOf] using hsort)
  · intro hh
    have hp : s.prepared = [] := hemp (by simpa [sendStepM] using hh)
    simp [sendStepM, getSendBurst, hp]
  · intro st hst
    obtain ⟨h1, h2, h3, h4⟩ := hall st (by simpa [sendStepM] using hst)
    refine ⟨h1, ?_, ?_, ?_⟩
    · intro hss
      have hp : s.prepared = [] := h2 hss
      simp [sendStepM, getSendBurst, hp]
    · intro p hp q hq
      exact h3 p (hsub p hp) q hq
    · intro p hp
      exact h4 p (hsub p hp)

/-- Every reachable muxer state with at most one stream satisfies the invariant. -/
theorem inv1_of_reachable (preroll : Int) (s : MuxState) (h : Reachable preroll s) :
    s.streams.length ≤ 1 → Inv1 s := by
  induction h with
  | refl =>
    intro _
    exact inv1_init
  | tail hab hstep ih =>
    rename_i b c
    intro hlen
    cases hstep with
    | create =>
      have hb0 : b.streams = [] := by
        simp only [createStepM, List.length_append, List.length_singleton] at hlen
        exact List.length_eq_zero.mp (by omega)
      exact inv1_create b hb0 (ih (by simp [hb0]))
    | push i d hmono =>
      have hlen' : b.streams.length ≤ 1 := by
        simpa [pushStepM, modifyIdx_length] using hlen
      exact inv1_push b i d hmono (ih hlen') hlen'
    | prepare now =>
      have hlen' : b.streams.length ≤ 1 := by
        simpa [prepareStepM, prepareBurst, prepareBurstFuel_length] using hlen
      exact inv1_prepare b now preroll (ih hlen') hlen'
    | send now =>
      have hlen' : b.streams.length ≤ 1 := by
        simpa [sendStepM] using hlen
      exact inv1_send b now (ih hlen')

/-- C6, amended: in every reachable state with at most one stream, the shared
`prepared_burst` list is sorted in non-decreasing order of the normalized deadlines
stored in the datagrams. (With two or more streams the preparer appends round-robin
with plain `push_back` and the list need not be sorted across streams; each stream's
own contribution still arrives in non-decreasing order.) -/
theorem c6_amended (preroll : Int) (s : MuxState) (h : Reachable preroll s)
    (hlen : s.streams.length ≤ 1) :
    List.Pairwise (· ≤ ·) (ticksOf s.prepared) :=
  (inv1_of_reachable preroll s h hlen).1

/-- C6, witness: the single-stream run `sW6` is reachable and its prepared list
(ticks `[1000, 10001000]`) is sorted. -/
theorem c6_amended_witness :
    sW6.streams.length ≤ 1 ∧ ticksOf sW6.prepared = [1000, 10001000] ∧
      List.Pairwise (· ≤ ·) (ticksOf sW6.prepared) :=
  ⟨by decide, by decide,
    c6_amended 40 sW6
      (Relation.ReflTransGen.head (MuxStep.create _)
        (Relation.ReflTransGen.head (MuxStep.push _ 0 ⟨0, 0⟩ (by decide))
        (Relation.ReflTransGen.head (MuxStep.push _ 0 ⟨10000000, 1⟩ (by decide))
        (Relation.ReflTransGen.head (MuxStep.push _ 0 ⟨50000000, 2⟩ (by decide))
        (Relation.ReflTransGen.head (MuxStep.prepare _ 1000)
        (Relation.ReflTransGen.head (MuxStep.prepare _ 30000000)
          Relation.ReflTransGen.refl))))))
      (by decide)⟩

end ipcaster
